import Mathlib

/-!
Verification of the settlement engine of `ExpenseSplitter`
(`src/ExpenseSplitter.tsx`, function `calculateSettlements`, lines 244-286).

The JavaScript numbers are modelled as exact rationals (`ℚ`).  The engine is
a pure function from the list of people (name, amount paid) to a list of
settlements (from, to, amount).  The mutable two-cursor loop of the source
is modelled as a recursion on the two lists of remaining debtors and
creditors: advancing a cursor corresponds to dropping the head of a list,
and mutating `balance` in place corresponds to replacing the head by a
record with the decremented balance.
-/

namespace ExpenseSplitter

/-- A contributor, as stored in the `people` state of the source:
`{ name, amount }`. -/
structure Person where
  name : String
  amount : ℚ
deriving DecidableEq

/-- An entry of the `balances` array of the source (line 254):
`{ name, balance }`. -/
structure Balance where
  name : String
  balance : ℚ
deriving DecidableEq

/-- A settlement, as pushed on line 271: `{ from, to, amount }`.
`from` is a Lean keyword, so the fields are named `from_` and `to_`. -/
structure Settlement where
  from_ : String
  to_ : String
  amount : ℚ
deriving DecidableEq

/-- The one-cent tolerance `0.01` appearing on lines 270, 281, 282. -/
def eps : ℚ := 1 / 100

/-- Line 250: `peopleList.reduce((sum, person) => sum + person.amount, 0)`. -/
def totalAmount (l : List Person) : ℚ :=
  l.foldl (fun s p => s + p.amount) 0

/-- Line 251: `totalAmount / peopleList.length` (division by zero yields 0
in `ℚ`; the guard on line 245 means it is only used with length ≥ 2). -/
def averageAmount (l : List Person) : ℚ :=
  totalAmount l / (l.length : ℚ)

/-- Lines 254-257: `peopleList.map(person => ({name, balance: amount - avg}))`. -/
def balances (l : List Person) : List Balance :=
  l.map (fun p => ⟨p.name, p.amount - averageAmount l⟩)

/-- Line 260 applied to an arbitrary balance list:
`balances.filter(b => b.balance < 0).map(b => ({...b, balance: -b.balance}))`. -/
def debtorsOf (B : List Balance) : List Balance :=
  (B.filter (fun b => decide (b.balance < 0))).map (fun b => ⟨b.name, -b.balance⟩)

/-- Line 261 applied to an arbitrary balance list:
`balances.filter(b => b.balance > 0)`. -/
def creditorsOf (B : List Balance) : List Balance :=
  B.filter (fun b => decide (0 < b.balance))

/-- Line 260: the debtors of the input list. -/
def debtors (l : List Person) : List Balance :=
  debtorsOf (balances l)

/-- Line 261: the creditors of the input list. -/
def creditors (l : List Person) : List Balance :=
  creditorsOf (balances l)

/-- Lines 264-283, the matching loop.  The two arguments are the suffixes
of `debtors` and `creditors` from the current cursors on, with the current
(possibly decremented) balances at their heads.  One iteration computes
`settlement = min(debt, credit)` (line 268), records a transfer exactly
when `settlement > 0.01` (line 270), decrements both balances (lines
278-279) and advances each cursor whose remaining balance fell below
`0.01` (lines 281-282).  The loop exits when either side is exhausted
(line 265).  The fourth branch is unreachable: subtracting
`min(debt, credit)` zeroes at least one of the two balances, so at least
one advance condition holds; the branch carries a proof of `False`. -/
def settle : List Balance → List Balance → List Settlement
  | [], _ => []
  | _ :: _, [] => []
  | d :: ds, c :: cs =>
    let s := min d.balance c.balance
    let rest :=
      if hd : d.balance - s < eps then
        if hc : c.balance - s < eps then
          settle ds cs
        else
          settle ds (⟨c.name, c.balance - s⟩ :: cs)
      else
        if hc : c.balance - s < eps then
          settle (⟨d.name, d.balance - s⟩ :: ds) cs
        else
          False.elim (by
            rcases le_total d.balance c.balance with h | h
            · exact hd (by rw [show s = d.balance from min_eq_left h]; simp [eps])
            · exact hc (by rw [show s = c.balance from min_eq_right h]; simp [eps]))
    if eps < s then ⟨d.name, c.name, s⟩ :: rest else rest
termination_by D C => D.length + C.length
decreasing_by
  · simp_arith
  · simp_arith
  · simp_arith

/-- Lines 244-286: the whole engine.  The spec calls it
`computeSettlements`; the source name is `calculateSettlements`.  Line 245
returns the empty list when fewer than 2 people are supplied; otherwise
the result is the matching loop run on the classified debtors and
creditors. -/
def calculateSettlements (l : List Person) : List Settlement :=
  if l.length < 2 then [] else settle (debtors l) (creditors l)

/-- Stable descending sort by `balance` (insertion sort is stable).  This
definition follows the words of the spec, not the source: the source
performs no sort.  It is used to compare the source behaviour with the
spec's described behaviour. -/
def sortDesc (B : List Balance) : List Balance :=
  B.insertionSort (fun a b => b.balance ≤ a.balance)

/-- The engine as the spec describes it in section 4, step 4: classify,
then sort both sides by owed amount descending with a stable sort, then
match greedily.  This definition follows the spec's words and exists only
to be compared with `calculateSettlements`, which is the source's
behaviour. -/
def calculateSettlementsSpec (l : List Person) : List Settlement :=
  if l.length < 2 then [] else settle (sortDesc (debtors l)) (sortDesc (creditors l))

/-- Collapse consecutive duplicates of a list of names.  Used to state
that the sequence of `from` names of the output visits the debtors in
their list order. -/
def compress : List String → List String
  | [] => []
  | [a] => [a]
  | a :: b :: t => if a = b then compress (b :: t) else a :: compress (b :: t)

/-- Whole number of cents: the rational has at most 2 decimal places. -/
def Cent (q : ℚ) : Prop := ∃ k : ℤ, q = k / 100

/-- Sum of the amounts a given name pays out across a settlement list. -/
def outSum (S : List Settlement) (nm : String) : ℚ :=
  ((S.filter (fun t => decide (t.from_ = nm))).map Settlement.amount).sum

/-- Sum of the amounts a given name receives across a settlement list. -/
def inSum (S : List Settlement) (nm : String) : ℚ :=
  ((S.filter (fun t => decide (t.to_ = nm))).map Settlement.amount).sum

/-- Sum of all amounts of a settlement list. -/
def amountSum (S : List Settlement) : ℚ :=
  (S.map Settlement.amount).sum

/-- Sum of the balances of a balance list. -/
def sumBal (B : List Balance) : ℚ :=
  (B.map Balance.balance).sum

/-- Sum of the balances of the entries carrying a given name. -/
def nameBal (B : List Balance) (nm : String) : ℚ :=
  ((B.filter (fun b => decide (b.name = nm))).map Balance.balance).sum

/-- Example input: spec section 8, scenario B. -/
def exPair : List Person := [⟨"Alice", 100⟩, ⟨"Bob", 0⟩]

/-- Example input: three people whose debtors are not in descending-owed
order (A owes 10, B owes 40, C is owed 50). -/
def exUnsorted : List Person := [⟨"A", 30⟩, ⟨"B", 0⟩, ⟨"C", 90⟩]

/-- Example input: P1 is 5 cents under the fair share of 1, the five
others are 1 cent over, so every matching step transfers exactly one cent
and is skipped. -/
def exSkip : List Person :=
  [⟨"P1", 19/20⟩, ⟨"P2", 101/100⟩, ⟨"P3", 101/100⟩, ⟨"P4", 101/100⟩,
    ⟨"P5", 101/100⟩, ⟨"P6", 101/100⟩]

/-- Example input: A's net is `+0.005`, within the tolerance of zero, yet
the source classifies A as a creditor. -/
def exTiny : List Person := [⟨"A", 201/200⟩, ⟨"B", 1⟩, ⟨"C", 199/200⟩]

/-- Example input: fair share `100/3` is a repeating decimal, so the
emitted amounts have more than 2 decimal places. -/
def exThird : List Person := [⟨"A", 100⟩, ⟨"B", 0⟩, ⟨"C", 0⟩]

/-! ## Basic lemmas about the matching loop -/

/-- Subtracting `min(debt, credit)` zeroes at least one of the two current
balances, so at least one cursor always advances. -/
lemma min_drop (a b : ℚ) : a - min a b < eps ∨ b - min a b < eps := by
  rcases le_total a b with h | h
  · left
    rw [min_eq_left h]
    simp [eps]
  · right
    rw [min_eq_right h]
    simp [eps]

/-- One unfolding of the matching loop: a transfer is recorded exactly
when `min(debt, credit) > eps`, and both balances are decremented and the
cursors advanced regardless of whether the transfer was recorded. -/
lemma settle_step (d c : Balance) (ds cs : List Balance) :
    settle (d :: ds) (c :: cs) =
      (if eps < min d.balance c.balance
        then [⟨d.name, c.name, min d.balance c.balance⟩] else []) ++
      settle
        (if d.balance - min d.balance c.balance < eps then ds
          else ⟨d.name, d.balance - min d.balance c.balance⟩ :: ds)
        (if c.balance - min d.balance c.balance < eps then cs
          else ⟨c.name, c.balance - min d.balance c.balance⟩ :: cs) := by
  rw [settle]
  split_ifs <;> try simp_all
  all_goals rcases min_drop d.balance c.balance with h | h <;> simp_all

/-- Every recorded amount is strictly larger than the tolerance. -/
lemma settle_amount_gt_eps (D C : List Balance) :
    ∀ t ∈ settle D C, eps < t.amount := by
  induction D, C using settle.induct with
  | case1 C => simp [settle]
  | case2 d ds => simp [settle]
  | case3 d ds c cs s hs ih1 ih2 ih3 | case4 d ds c cs s hs ih1 ih2 ih3 =>
    have hs' : s = min d.balance c.balance := rfl
    rw [hs'] at hs ih2 ih3
    rw [settle_step]
    intro t ht
    rcases List.mem_append.1 ht with h | h
    · first
      | · rw [if_neg hs] at h
          simp at h
      | · rw [if_pos hs] at h
          simp only [List.mem_singleton] at h
          subst h
          exact hs
    · by_cases h1 : d.balance - min d.balance c.balance < eps
      · by_cases h2 : c.balance - min d.balance c.balance < eps
        · rw [if_pos h1, if_pos h2] at h
          exact ih1 t h
        · rw [if_pos h1, if_neg h2] at h
          exact ih2 t h
      · by_cases h2 : c.balance - min d.balance c.balance < eps
        · rw [if_neg h1, if_pos h2] at h
          exact ih3 t h
        · rcases min_drop d.balance c.balance with hh | hh
          · exact absurd hh h1
          · exact absurd hh h2

/-- The number of recorded transfers is at most the total number of
classified participants minus one (truncated subtraction). -/
lemma settle_length (D C : List Balance) :
    (settle D C).length ≤ D.length + C.length - 1 := by
  induction D, C using settle.induct with
  | case1 C => simp [settle]
  | case2 d ds => simp [settle]
  | case3 d ds c cs s hs ih1 ih2 ih3 | case4 d ds c cs s hs ih1 ih2 ih3 =>
    have hs' : s = min d.balance c.balance := rfl
    rw [hs'] at hs ih2 ih3
    rw [settle_step, List.length_append]
    have hemit :
        (if eps < min d.balance c.balance
          then [(⟨d.name, c.name, min d.balance c.balance⟩ : Settlement)]
          else []).length ≤ 1 := by
      split_ifs
      all_goals simp
    by_cases h1 : d.balance - min d.balance c.balance < eps
    · by_cases h2 : c.balance - min d.balance c.balance < eps
      · rw [if_pos h1, if_pos h2]
        simp only [List.length_cons] at *
        omega
      · rw [if_pos h1, if_neg h2]
        simp only [List.length_cons] at *
        omega
    · by_cases h2 : c.balance - min d.balance c.balance < eps
      · rw [if_neg h1, if_pos h2]
        simp only [List.length_cons] at *
        omega
      · rcases min_drop d.balance c.balance with hh | hh
        · exact absurd hh h1
        · exact absurd hh h2

/-- Every recorded transfer draws its `from` name from the debtor list
and its `to` name from the creditor list. -/
lemma settle_names (D C : List Balance) :
    ∀ t ∈ settle D C,
      t.from_ ∈ D.map Balance.name ∧ t.to_ ∈ C.map Balance.name := by
  induction D, C using settle.induct with
  | case1 C => simp [settle]
  | case2 d ds => simp [settle]
  | case3 d ds c cs s hs ih1 ih2 ih3 | case4 d ds c cs s hs ih1 ih2 ih3 =>
    have hs' : s = min d.balance c.balance := rfl
    rw [hs'] at hs ih2 ih3
    rw [settle_step]
    intro t ht
    rcases List.mem_append.1 ht with h | h
    · first
      | · rw [if_neg hs] at h
          simp at h
      | · rw [if_pos hs] at h
          simp only [List.mem_singleton] at h
          subst h
          simp
    · by_cases h1 : d.balance - min d.balance c.balance < eps
      · by_cases h2 : c.balance - min d.balance c.balance < eps
        · rw [if_pos h1, if_pos h2] at h
          obtain ⟨hf, ht'⟩ := ih1 t h
          exact ⟨List.mem_cons_of_mem _ hf, List.mem_cons_of_mem _ ht'⟩
        · rw [if_pos h1, if_neg h2] at h
          obtain ⟨hf, ht'⟩ := ih2 t h
          simp only [List.map_cons, List.mem_cons] at ht' ⊢
          exact ⟨Or.inr hf, ht'⟩
      · by_cases h2 : c.balance - min d.balance c.balance < eps
        · rw [if_neg h1, if_pos h2] at h
          obtain ⟨hf, ht'⟩ := ih3 t h
          simp only [List.map_cons, List.mem_cons] at hf ⊢
          exact ⟨hf, Or.inr ht'⟩
        · rcases min_drop d.balance c.balance with hh | hh
          · exact absurd hh h1
          · exact absurd hh h2

/-! ## Arithmetic facts about cent amounts -/

lemma Cent.sub {a b : ℚ} (ha : Cent a) (hb : Cent b) : Cent (a - b) := by
  obtain ⟨j, rfl⟩ := ha
  obtain ⟨k, rfl⟩ := hb
  exact ⟨j - k, by push_cast; ring⟩

lemma Cent.neg {a : ℚ} (ha : Cent a) : Cent (-a) := by
  obtain ⟨j, rfl⟩ := ha
  exact ⟨-j, by push_cast; ring⟩

lemma Cent.min_cent {a b : ℚ} (ha : Cent a) (hb : Cent b) : Cent (min a b) := by
  rcases le_total a b with h | h
  · rwa [min_eq_left h]
  · rwa [min_eq_right h]

/-- Amounts recorded by the loop are cent amounts whenever all the
balances fed to it are cent amounts: each recorded amount is a `min` of
two running balances, and the running balances stay cent amounts because
they only ever change by subtraction of such a `min`. -/
lemma settle_cent :
    ∀ D C : List Balance, (∀ b ∈ D, Cent b.balance) →
      (∀ b ∈ C, Cent b.balance) → ∀ t ∈ settle D C, Cent t.amount := by
  intro D C
  induction D, C using settle.induct with
  | case1 C => simp [settle]
  | case2 d ds => simp [settle]
  | case3 d ds c cs s hs ih1 ih2 ih3 | case4 d ds c cs s hs ih1 ih2 ih3 =>
    have hs' : s = min d.balance c.balance := rfl
    rw [hs'] at hs ih2 ih3
    intro hD hC
    have hd0 : Cent d.balance := hD d (by simp)
    have hc0 : Cent c.balance := hC c (by simp)
    have hds : ∀ b ∈ ds, Cent b.balance := fun b hb => hD b (by simp [hb])
    have hcs : ∀ b ∈ cs, Cent b.balance := fun b hb => hC b (by simp [hb])
    have hmin : Cent (min d.balance c.balance) := hd0.min_cent hc0
    rw [settle_step]
    intro t ht
    rcases List.mem_append.1 ht with h | h
    · first
      | · rw [if_neg hs] at h
          simp at h
      | · rw [if_pos hs] at h
          simp only [List.mem_singleton] at h
          subst h
          exact hmin
    · by_cases h1 : d.balance - min d.balance c.balance < eps
      · by_cases h2 : c.balance - min d.balance c.balance < eps
        · rw [if_pos h1, if_pos h2] at h
          exact ih1 hds hcs t h
        · rw [if_pos h1, if_neg h2] at h
          refine ih2 hds ?_ t h
          intro b hb
          rcases List.mem_cons.1 hb with rfl | hb
          · exact hc0.sub hmin
          · exact hcs b hb
      · by_cases h2 : c.balance - min d.balance c.balance < eps
        · rw [if_neg h1, if_pos h2] at h
          refine ih3 ?_ hcs t h
          intro b hb
          rcases List.mem_cons.1 hb with rfl | hb
          · exact hd0.sub hmin
          · exact hds b hb
        · rcases min_drop d.balance c.balance with hh | hh
          · exact absurd hh h1
          · exact absurd hh h2

/-! ## Claim theorems -/

/-- C10 (confirmed): each matching step records a transfer if and only if
the transferred amount `min(debtor.remaining, creditor.remaining)` is
strictly greater than `0.01`; whether or not the transfer was recorded,
both remaining balances are decremented by that amount and each cursor
whose balance fell below `0.01` advances, so a skipped amount of up to
one cent per step is silently discarded. -/
theorem claim_C10_step (d c : Balance) (ds cs : List Balance) :
    settle (d :: ds) (c :: cs) =
      (if eps < min d.balance c.balance
        then [⟨d.name, c.name, min d.balance c.balance⟩] else []) ++
      settle
        (if d.balance - min d.balance c.balance < eps then ds
          else ⟨d.name, d.balance - min d.balance c.balance⟩ :: ds)
        (if c.balance - min d.balance c.balance < eps then cs
          else ⟨c.name, c.balance - min d.balance c.balance⟩ :: cs) :=
  settle_step d c ds cs

/-- C5 (confirmed): with fewer than 2 contributors the engine returns the
empty transfer list (line 245); no error is raised, the function is total. -/
theorem claim_C5_minimum (l : List Person) (h : l.length < 2) :
    calculateSettlements l = [] := by
  simp [calculateSettlements, h]

theorem claim_C5_minimum_witness :
    ([] : List Person).length < 2 ∧ calculateSettlements [] = [] ∧
      [(⟨"Solo", 5⟩ : Person)].length < 2 ∧
      calculateSettlements [⟨"Solo", 5⟩] = [] :=
  ⟨by decide, claim_C5_minimum [] (by decide), by decide,
    claim_C5_minimum [⟨"Solo", 5⟩] (by decide)⟩

/-- C6 (confirmed): the matching loop terminates (the modelled function is
total by well-founded recursion on the combined length: every step drops
at least one participant), and the returned list has at most `n - 1`
entries, `n` being the number of classified debtors plus creditors
(natural subtraction). -/
theorem claim_C6_length (l : List Person) :
    (calculateSettlements l).length ≤
      (debtors l).length + (creditors l).length - 1 := by
  unfold calculateSettlements
  split
  · simp
  · exact settle_length _ _

/-- C8 (confirmed): every returned transfer has a strictly positive
amount; indeed every recorded amount exceeds the tolerance `0.01`. -/
theorem claim_C8_positive (l : List Person) :
    ∀ t ∈ calculateSettlements l, 0 < t.amount := by
  intro t ht
  unfold calculateSettlements at ht
  split at ht
  · simp at ht
  · have h := settle_amount_gt_eps _ _ t ht
    have heps : (0 : ℚ) < eps := by norm_num [eps]
    linarith

theorem claim_C8_positive_witness :
    (0 : ℚ) < ((⟨"Bob", "Alice", 50⟩ : Settlement)).amount :=
  claim_C8_positive exPair _ (by
    norm_num [calculateSettlements, exPair, debtors, creditors, balances,
      debtorsOf, creditorsOf, totalAmount, averageAmount, settle, eps])

/-- C3 (refuted as stated): the source classifies with strict comparisons
against zero, not against the tolerance.  In `exTiny`, contributor A has
net `+0.005`, which is not greater than `eps = 0.01`, yet A is classified
as a creditor; symmetrically C has net `-0.005` and is classified as a
debtor. -/
theorem claim_C3_counterexample :
    (⟨"A", 1/200⟩ : Balance) ∈ creditors exTiny ∧ ¬ eps < (1/200 : ℚ) ∧
      (⟨"C", 1/200⟩ : Balance) ∈ debtors exTiny ∧
      ¬ ((-(1/200) : ℚ) < -eps) := by
  refine ⟨?_, by norm_num [eps], ?_, by norm_num [eps]⟩
  · norm_num [creditors, creditorsOf, balances, exTiny, totalAmount,
      averageAmount]
  · norm_num [debtors, debtorsOf, balances, exTiny, totalAmount,
      averageAmount]

/-- C3 (amended): a contributor is classified as a creditor exactly when
its net is strictly positive and as a debtor (with negated balance)
exactly when its net is strictly negative; the tolerance `eps` plays no
role in classification, only zero-net contributors are excluded. -/
theorem claim_C3_amended (l : List Person) (b : Balance) :
    (b ∈ creditors l ↔ b ∈ balances l ∧ 0 < b.balance) ∧
    (b ∈ debtors l ↔
      ∃ a, a ∈ balances l ∧ a.balance < 0 ∧ b = ⟨a.name, -a.balance⟩) := by
  constructor
  · simp [creditors, creditorsOf, List.mem_filter]
  · simp only [debtors, debtorsOf, List.mem_map, List.mem_filter,
      decide_eq_true_eq]
    constructor
    · rintro ⟨a, ⟨ha, hneg⟩, rfl⟩
      exact ⟨a, ha, hneg, rfl⟩
    · rintro ⟨a, ha, hneg, rfl⟩
      exact ⟨a, ⟨ha, hneg⟩, rfl⟩

/-- C4 (refuted as stated): the source never rounds.  On `exThird` the
fair share is `100/3` and the two returned amounts are `100/3`, which is
not a whole number of cents, i.e. has more than 2 decimal places. -/
theorem claim_C4_counterexample :
    (⟨"B", "A", 100/3⟩ : Settlement) ∈ calculateSettlements exThird ∧
      ¬ Cent (100/3) := by
  constructor
  · norm_num [calculateSettlements, exThird, debtors, creditors, balances,
      debtorsOf, creditorsOf, totalAmount, averageAmount, settle, eps]
  · rintro ⟨k, hk⟩
    rw [div_eq_div_iff (by norm_num) (by norm_num)] at hk
    have hk' : (10000 : ℤ) = k * 3 := by exact_mod_cast hk
    omega

/-- C4 (amended): no rounding is applied to the recorded amounts; they
are the exact `min` of the running balances.  When every contribution is
a whole number of cents and the fair share is too, every recorded amount
is a whole number of cents; otherwise amounts with more than 2 decimal
places can be returned (see the counterexample). -/
theorem claim_C4_amended (l : List Person) (hp : ∀ p ∈ l, Cent p.amount)
    (ha : Cent (averageAmount l)) :
    ∀ t ∈ calculateSettlements l, Cent t.amount := by
  intro t ht
  unfold calculateSettlements at ht
  split at ht
  · simp at ht
  · refine settle_cent _ _ ?_ ?_ t ht
    · intro b hb
      simp only [debtors, debtorsOf, balances, List.mem_map,
        List.mem_filter] at hb
      obtain ⟨a, ⟨⟨p, hp', rfl⟩, _⟩, rfl⟩ := hb
      exact ((hp p hp').sub ha).neg
    · intro b hb
      simp only [creditors, creditorsOf, balances, List.mem_filter,
        List.mem_map] at hb
      obtain ⟨⟨p, hp', rfl⟩, _⟩ := hb
      exact (hp p hp').sub ha

theorem claim_C4_amended_witness :
    (∀ p ∈ exPair, Cent p.amount) ∧ Cent (averageAmount exPair) ∧
      Cent ((⟨"Bob", "Alice", 50⟩ : Settlement)).amount := by
  have hp : ∀ p ∈ exPair, Cent p.amount := by
    intro p hp
    simp only [exPair, List.mem_cons, List.not_mem_nil, or_false] at hp
    rcases hp with rfl | rfl
    · exact ⟨10000, by norm_num⟩
    · exact ⟨0, by norm_num⟩
  have ha : Cent (averageAmount exPair) := by
    have : averageAmount exPair = 50 := by
      norm_num [averageAmount, totalAmount, exPair]
    rw [this]
    exact ⟨5000, by norm_num⟩
  refine ⟨hp, ha, claim_C4_amended exPair hp ha _ ?_⟩
  norm_num [calculateSettlements, exPair, debtors, creditors, balances,
    debtorsOf, creditorsOf, totalAmount, averageAmount, settle, eps]

/-! ## Order of the recorded transfers -/

/-- Collapsing consecutive duplicates keeps the head of a nonempty list. -/
lemma compress_head : ∀ (t : List String) (b : String),
    ∃ r, compress (b :: t) = b :: r := by
  intro t
  induction t with
  | nil => exact fun b => ⟨[], rfl⟩
  | cons c t' ih =>
    intro b
    by_cases h : b = c
    · subst h
      obtain ⟨r, hr⟩ := ih b
      refine ⟨r, ?_⟩
      calc compress (b :: b :: t') = compress (b :: t') := by simp [compress]
      _ = b :: r := hr
    · exact ⟨compress (c :: t'), by simp [compress, h]⟩

lemma sublist_cons_of_ne {b a : String} {r M : List String}
    (h : List.Sublist (b :: r) (a :: M)) (hne : b ≠ a) : List.Sublist (b :: r) M := by
  cases h with
  | cons _ h' => exact h'
  | cons₂ => exact absurd rfl hne

lemma compress_cons_sublist {l M : List String} {a : String}
    (h : List.Sublist (compress l) (a :: M)) : List.Sublist (compress (a :: l)) (a :: M) := by
  cases l with
  | nil =>
    simp only [compress]
    exact List.Sublist.cons₂ a (List.nil_sublist M)
  | cons b t =>
    by_cases hab : a = b
    · subst hab
      have heq : compress (a :: a :: t) = compress (a :: t) := by simp [compress]
      rw [heq]
      exact h
    · have hc : compress (a :: b :: t) = a :: compress (b :: t) := by
        simp [compress, hab]
      rw [hc]
      obtain ⟨r, hr⟩ := compress_head t b
      rw [hr] at h ⊢
      exact List.Sublist.cons₂ a
        (sublist_cons_of_ne h (fun hba => hab hba.symm))

/-- The `from` names of the recorded transfers, with consecutive
duplicates collapsed, traverse the debtor list in its order: the loop
never returns to an earlier debtor. -/
lemma settle_from_order (D C : List Balance) :
    List.Sublist (compress ((settle D C).map Settlement.from_)) (D.map Balance.name) := by
  induction D, C using settle.induct with
  | case1 C => simp [settle, compress]
  | case2 d ds => simp [settle, compress]
  | case3 d ds c cs s hs ih1 ih2 ih3 | case4 d ds c cs s hs ih1 ih2 ih3 =>
    have hs' : s = min d.balance c.balance := rfl
    rw [hs'] at hs ih2 ih3
    rw [settle_step, List.map_append, List.map_cons]
    first
    | rw [if_neg hs]
    | rw [if_pos hs]
    all_goals simp only [List.map_cons, List.map_nil, List.nil_append,
      List.cons_append, List.singleton_append]
    all_goals by_cases h1 : d.balance - min d.balance c.balance < eps
    all_goals by_cases h2 : c.balance - min d.balance c.balance < eps
    all_goals first
    | (rcases min_drop d.balance c.balance with hh | hh
       · exact absurd hh h1
       · exact absurd hh h2)
    | (rw [if_pos h1, if_pos h2]
       first
       | exact List.Sublist.cons _ ih1
       | exact compress_cons_sublist (List.Sublist.cons _ ih1))
    | (rw [if_pos h1, if_neg h2]
       first
       | exact List.Sublist.cons _ ih2
       | exact compress_cons_sublist (List.Sublist.cons _ ih2))
    | (rw [if_neg h1, if_pos h2]
       first
       | simpa using ih3
       | exact compress_cons_sublist (by simpa using ih3))

/-- The `to` names of the recorded transfers, with consecutive duplicates
collapsed, traverse the creditor list in its order. -/
lemma settle_to_order (D C : List Balance) :
    List.Sublist (compress ((settle D C).map Settlement.to_)) (C.map Balance.name) := by
  induction D, C using settle.induct with
  | case1 C => simp [settle, compress]
  | case2 d ds => simp [settle, compress]
  | case3 d ds c cs s hs ih1 ih2 ih3 | case4 d ds c cs s hs ih1 ih2 ih3 =>
    have hs' : s = min d.balance c.balance := rfl
    rw [hs'] at hs ih2 ih3
    rw [settle_step, List.map_append, List.map_cons]
    first
    | rw [if_neg hs]
    | rw [if_pos hs]
    all_goals simp only [List.map_cons, List.map_nil, List.nil_append,
      List.cons_append, List.singleton_append]
    all_goals by_cases h1 : d.balance - min d.balance c.balance < eps
    all_goals by_cases h2 : c.balance - min d.balance c.balance < eps
    all_goals first
    | (rcases min_drop d.balance c.balance with hh | hh
       · exact absurd hh h1
       · exact absurd hh h2)
    | (rw [if_pos h1, if_pos h2]
       first
       | exact List.Sublist.cons _ ih1
       | exact compress_cons_sublist (List.Sublist.cons _ ih1))
    | (rw [if_pos h1, if_neg h2]
       first
       | simpa using ih2
       | exact compress_cons_sublist (by simpa using ih2))
    | (rw [if_neg h1, if_pos h2]
       first
       | exact List.Sublist.cons _ ih3
       | exact compress_cons_sublist (List.Sublist.cons _ ih3))

/-- C1 (refuted as stated): the source performs no sort at all.  On
`exUnsorted` the debtors appear in input order A (owes 10) before B (owes
40), and the first recorded transfer is from A, not from the
largest-remaining debtor B; the spec-described engine (stable descending
sort before matching, `calculateSettlementsSpec`) returns the two
transfers in the opposite order, so the source differs observably from
the claimed behaviour. -/
theorem claim_C1_counterexample :
    calculateSettlements exUnsorted =
        [⟨"A", "C", 10⟩, ⟨"B", "C", 40⟩] ∧
      calculateSettlementsSpec exUnsorted =
        [⟨"B", "C", 40⟩, ⟨"A", "C", 10⟩] ∧
      calculateSettlements exUnsorted ≠ calculateSettlementsSpec exUnsorted := by
  have h1 : calculateSettlements exUnsorted =
      [⟨"A", "C", 10⟩, ⟨"B", "C", 40⟩] := by
    norm_num [calculateSettlements, exUnsorted, debtors, creditors, balances,
      debtorsOf, creditorsOf, totalAmount, averageAmount, settle, eps]
  have h2 : calculateSettlementsSpec exUnsorted =
      [⟨"B", "C", 40⟩, ⟨"A", "C", 10⟩] := by
    norm_num [calculateSettlementsSpec, sortDesc, exUnsorted, debtors,
      creditors, balances, debtorsOf, creditorsOf, totalAmount, averageAmount,
      settle, eps, List.insertionSort, List.orderedInsert]
  refine ⟨h1, h2, ?_⟩
  rw [h1, h2]
  decide

/-- C1 (amended): no sort is performed; the creditors and debtors keep
their input order, and each matching step pairs the first unresolved
debtor with the first unresolved creditor in that order.  Consequently
the `from` names of the output traverse the debtor list in input order
(never revisiting an earlier debtor) and the `to` names traverse the
creditor list in input order. -/
theorem claim_C1_amended (l : List Person) :
    List.Sublist (compress ((calculateSettlements l).map Settlement.from_))
        ((debtors l).map Balance.name) ∧
      List.Sublist (compress ((calculateSettlements l).map Settlement.to_))
        ((creditors l).map Balance.name) := by
  unfold calculateSettlements
  split
  · simp [compress]
  · exact ⟨settle_from_order _ _, settle_to_order _ _⟩

/-! ## No self-transfer -/

lemma balances_names (l : List Person) :
    (balances l).map Balance.name = l.map Person.name := by
  simp [balances, List.map_map]

lemma mem_debtors_names {l : List Person} {nm : String}
    (h : nm ∈ (debtors l).map Balance.name) :
    ∃ b ∈ balances l, b.balance < 0 ∧ b.name = nm := by
  simp only [debtors, debtorsOf, List.map_map, List.mem_map,
    List.mem_filter, decide_eq_true_eq, Function.comp] at h
  obtain ⟨b, ⟨hb, hneg⟩, hname⟩ := h
  exact ⟨b, hb, hneg, hname⟩

lemma mem_creditors_names {l : List Person} {nm : String}
    (h : nm ∈ (creditors l).map Balance.name) :
    ∃ b ∈ balances l, 0 < b.balance ∧ b.name = nm := by
  simp only [creditors, creditorsOf, List.mem_map, List.mem_filter,
    decide_eq_true_eq] at h
  obtain ⟨b, ⟨hb, hpos⟩, hname⟩ := h
  exact ⟨b, hb, hpos, hname⟩

/-- C7 (confirmed): when the contributor names are distinct, no recorded
transfer pays a person to themselves: the `from` name belongs to a
debtor, the `to` name to a creditor, and with distinct names no entry of
the balance list can have both a negative and a positive balance. -/
theorem claim_C7_no_self (l : List Person) (hn : (l.map Person.name).Nodup) :
    ∀ t ∈ calculateSettlements l, t.from_ ≠ t.to_ := by
  intro t ht heq
  unfold calculateSettlements at ht
  split at ht
  · simp at ht
  · obtain ⟨hf, htn⟩ := settle_names _ _ t ht
    rw [heq] at hf
    obtain ⟨b1, hb1, hneg, hname1⟩ := mem_debtors_names hf
    obtain ⟨b2, hb2, hpos, hname2⟩ := mem_creditors_names htn
    have hnB : ((balances l).map Balance.name).Nodup := by
      rwa [balances_names]
    have hb12 : b1 = b2 :=
      List.inj_on_of_nodup_map hnB hb1 hb2 (hname1.trans hname2.symm)
    rw [hb12] at hneg
    linarith

theorem claim_C7_no_self_witness :
    ((exPair.map Person.name).Nodup) ∧
      ((⟨"Bob", "Alice", 50⟩ : Settlement)).from_ ≠
        ((⟨"Bob", "Alice", 50⟩ : Settlement)).to_ :=
  ⟨by decide, claim_C7_no_self exPair (by decide) _ (by
    norm_num [calculateSettlements, exPair, debtors, creditors, balances,
      debtorsOf, creditorsOf, totalAmount, averageAmount, settle, eps])⟩

/-! ## Accounting lemmas for the re-balancing bound -/

lemma outSum_nil (nm : String) : outSum [] nm = 0 := rfl

lemma outSum_cons (t : Settlement) (S : List Settlement) (nm : String) :
    outSum (t :: S) nm =
      (if t.from_ = nm then t.amount else 0) + outSum S nm := by
  by_cases h : t.from_ = nm <;>
    simp [outSum, List.filter_cons, h]

lemma inSum_nil (nm : String) : inSum [] nm = 0 := rfl

lemma inSum_cons (t : Settlement) (S : List Settlement) (nm : String) :
    inSum (t :: S) nm =
      (if t.to_ = nm then t.amount else 0) + inSum S nm := by
  by_cases h : t.to_ = nm <;>
    simp [inSum, List.filter_cons, h]

lemma outSum_append (S1 S2 : List Settlement) (nm : String) :
    outSum (S1 ++ S2) nm = outSum S1 nm + outSum S2 nm := by
  simp [outSum, List.filter_append]

lemma inSum_append (S1 S2 : List Settlement) (nm : String) :
    inSum (S1 ++ S2) nm = inSum S1 nm + inSum S2 nm := by
  simp [inSum, List.filter_append]

lemma amountSum_nil : amountSum [] = 0 := rfl

lemma amountSum_cons (t : Settlement) (S : List Settlement) :
    amountSum (t :: S) = t.amount + amountSum S := by
  simp [amountSum]

lemma amountSum_append (S1 S2 : List Settlement) :
    amountSum (S1 ++ S2) = amountSum S1 + amountSum S2 := by
  simp [amountSum]

lemma sumBal_nil : sumBal [] = 0 := rfl

lemma sumBal_cons (b : Balance) (B : List Balance) :
    sumBal (b :: B) = b.balance + sumBal B := by
  simp [sumBal]

lemma nameBal_nil (nm : String) : nameBal [] nm = 0 := rfl

lemma nameBal_cons (b : Balance) (B : List Balance) (nm : String) :
    nameBal (b :: B) nm =
      (if b.name = nm then b.balance else 0) + nameBal B nm := by
  by_cases h : b.name = nm <;>
    simp [nameBal, List.filter_cons, h]

lemma nameBal_nonneg (B : List Balance) (hB : ∀ b ∈ B, 0 < b.balance)
    (nm : String) : 0 ≤ nameBal B nm := by
  induction B with
  | nil => simp [nameBal_nil]
  | cons b B' ih =>
    rw [nameBal_cons]
    have hb := hB b (by simp)
    have h' : ∀ x ∈ B', 0 < x.balance := fun x hx => hB x (by simp [hx])
    have := ih h'
    split_ifs <;> linarith

lemma nameBal_eq_zero (B : List Balance) (nm : String)
    (h : nm ∉ B.map Balance.name) : nameBal B nm = 0 := by
  induction B with
  | nil => simp [nameBal_nil]
  | cons b B' ih =>
    simp only [List.map_cons, List.mem_cons, not_or] at h
    rw [nameBal_cons, if_neg (fun hh => h.1 hh.symm), ih h.2, add_zero]

lemma nameBal_of_nodup (B : List Balance)
    (hn : (B.map Balance.name).Nodup) :
    ∀ b ∈ B, nameBal B b.name = b.balance := by
  induction B with
  | nil => simp
  | cons e es ih =>
    simp only [List.map_cons, List.nodup_cons] at hn
    intro b hb
    rcases List.mem_cons.1 hb with rfl | hb'
    · rw [nameBal_cons, if_pos rfl,
        nameBal_eq_zero es b.name hn.1, add_zero]
    · have hne : e.name ≠ b.name := by
        intro h
        exact hn.1 (h ▸ List.mem_map_of_mem Balance.name hb')
      rw [nameBal_cons, if_neg hne, ih hn.2 b hb', zero_add]

lemma sum_map_add (ns : List String) (f g : String → ℚ) :
    ((ns.map (fun nm => f nm + g nm)).sum) =
      (ns.map f).sum + (ns.map g).sum := by
  induction ns with
  | nil => simp
  | cons a t ih => simp [ih]; ring

lemma sum_ite_zero (ns : List String) (a : String) (x : ℚ)
    (h : a ∉ ns) :
    ((ns.map (fun nm => if a = nm then x else 0)).sum) = 0 := by
  induction ns with
  | nil => simp
  | cons b t ih =>
    simp only [List.mem_cons, not_or] at h
    simp [if_neg h.1, ih h.2]

lemma sum_ite_single (ns : List String) (a : String) (x : ℚ)
    (hn : ns.Nodup) (ha : a ∈ ns) :
    ((ns.map (fun nm => if a = nm then x else 0)).sum) = x := by
  induction ns with
  | nil => simp at ha
  | cons b t ih =>
    simp only [List.nodup_cons] at hn
    rcases List.mem_cons.1 ha with rfl | ha'
    · simp [sum_ite_zero t a x hn.1]
    · have hne : a ≠ b := by
        intro h
        exact hn.1 (h ▸ ha')
      simp [if_neg hne, ih hn.2 ha']

lemma sum_map_const_q (l : List Person) (q : ℚ) :
    ((l.map (fun _ => q)).sum) = l.length * q := by
  induction l with
  | nil => simp
  | cons p t ih => simp [ih]; ring

/-- Global accounting bound, debtor side: when the total debt exceeds the
total credit by at most `δ`, all but `2·eps·(number of participants) + δ`
of the total debt is recorded in transfers.  Each matching step can
silently discard up to one cent (a skipped micro-settlement) and each
advanced cursor can leave up to one cent of residual balance behind,
which the `2·eps` per participant absorbs. -/
lemma settle_debt_cleared :
    ∀ D C : List Balance, ∀ δ : ℚ, 0 ≤ δ → sumBal D ≤ sumBal C + δ →
      sumBal D ≤ amountSum (settle D C) +
        2 * eps * (D.length + C.length) + δ := by
  intro D C
  induction D, C using settle.induct with
  | case1 C =>
    intro δ h0 _
    have hC : (0 : ℚ) ≤ (C.length : ℚ) := by positivity
    simp only [settle, sumBal_nil, amountSum_nil, List.length_nil]
    have heps : (0 : ℚ) < eps := by norm_num [eps]
    push_cast
    nlinarith
  | case2 d ds =>
    intro δ h0 hle
    have hD : (0 : ℚ) ≤ (((d :: ds).length : ℕ) : ℚ) := by positivity
    have heps : (0 : ℚ) < eps := by norm_num [eps]
    simp only [settle, sumBal_nil, amountSum_nil, List.length_nil] at hle ⊢
    push_cast at *
    nlinarith
  | case3 d ds c cs s hs ih1 ih2 ih3 | case4 d ds c cs s hs ih1 ih2 ih3 =>
    have hs' : s = min d.balance c.balance := rfl
    rw [hs'] at hs ih2 ih3
    intro δ h0 hle
    have heps : (0 : ℚ) < eps := by norm_num [eps]
    have hmd : min d.balance c.balance ≤ d.balance := min_le_left _ _
    have hmc : min d.balance c.balance ≤ c.balance := min_le_right _ _
    have hemit :
        amountSum (if eps < min d.balance c.balance
          then [⟨d.name, c.name, min d.balance c.balance⟩] else []) +
            eps ≥ min d.balance c.balance := by
      by_cases hh : eps < min d.balance c.balance
      · rw [if_pos hh, amountSum_cons, amountSum_nil]
        dsimp only
        linarith
      · rw [if_neg hh, amountSum_nil]
        push_neg at hh
        linarith
    have hemit0 :
        0 ≤ amountSum (if eps < min d.balance c.balance
          then [⟨d.name, c.name, min d.balance c.balance⟩] else []) := by
      by_cases hh : eps < min d.balance c.balance
      · rw [if_pos hh, amountSum_cons, amountSum_nil]
        dsimp only
        linarith
      · rw [if_neg hh, amountSum_nil]
    rw [settle_step, amountSum_append]
    rw [sumBal_cons, sumBal_cons] at hle
    rw [sumBal_cons]
    by_cases h1 : d.balance - min d.balance c.balance < eps
    · by_cases h2 : c.balance - min d.balance c.balance < eps
      · rw [if_pos h1, if_pos h2]
        have hprem : sumBal ds ≤ sumBal cs + (δ + eps) := by linarith
        have ihh := ih1 (δ + eps) (by linarith) hprem
        simp only [List.length_cons] at ihh ⊢
        push_cast at ihh ⊢
        linarith
      · rw [if_pos h1, if_neg h2]
        have hprem :
            sumBal ds ≤
              sumBal (⟨c.name, c.balance - min d.balance c.balance⟩ :: cs)
                + δ := by
          rw [sumBal_cons]
          dsimp only
          linarith
        have ihh := ih2 δ h0 hprem
        simp only [List.length_cons] at ihh ⊢
        push_cast at ihh ⊢
        linarith
    · by_cases h2 : c.balance - min d.balance c.balance < eps
      · rw [if_neg h1, if_pos h2]
        have hprem :
            sumBal (⟨d.name, d.balance - min d.balance c.balance⟩ :: ds) ≤
              sumBal cs + (δ + eps) := by
          rw [sumBal_cons]
          dsimp only
          linarith
        have ihh := ih3 (δ + eps) (by linarith) hprem
        rw [sumBal_cons] at ihh
        dsimp only at ihh
        simp only [List.length_cons] at ihh ⊢
        push_cast at ihh ⊢
        linarith
      · exfalso
        rcases min_drop d.balance c.balance with hh | hh
        · exact absurd hh h1
        · exact absurd hh h2

/-- Global accounting bound, creditor side: mirror image of
`settle_debt_cleared`. -/
lemma settle_credit_cleared :
    ∀ D C : List Balance, ∀ δ : ℚ, 0 ≤ δ → sumBal C ≤ sumBal D + δ →
      sumBal C ≤ amountSum (settle D C) +
        2 * eps * (D.length + C.length) + δ := by
  intro D C
  induction D, C using settle.induct with
  | case1 C =>
    intro δ h0 hle
    have hC : (0 : ℚ) ≤ (C.length : ℚ) := by positivity
    have heps : (0 : ℚ) < eps := by norm_num [eps]
    simp only [settle, sumBal_nil, amountSum_nil, List.length_nil] at hle ⊢
    push_cast at *
    nlinarith
  | case2 d ds =>
    intro δ h0 hle
    have hD : (0 : ℚ) ≤ (((d :: ds).length : ℕ) : ℚ) := by positivity
    have heps : (0 : ℚ) < eps := by norm_num [eps]
    simp only [settle, sumBal_nil, amountSum_nil, List.length_nil] at hle ⊢
    push_cast at *
    nlinarith
  | case3 d ds c cs s hs ih1 ih2 ih3 | case4 d ds c cs s hs ih1 ih2 ih3 =>
    have hs' : s = min d.balance c.balance := rfl
    rw [hs'] at hs ih2 ih3
    intro δ h0 hle
    have heps : (0 : ℚ) < eps := by norm_num [eps]
    have hmd : min d.balance c.balance ≤ d.balance := min_le_left _ _
    have hmc : min d.balance c.balance ≤ c.balance := min_le_right _ _
    have hemit :
        amountSum (if eps < min d.balance c.balance
          then [⟨d.name, c.name, min d.balance c.balance⟩] else []) +
            eps ≥ min d.balance c.balance := by
      by_cases hh : eps < min d.balance c.balance
      · rw [if_pos hh, amountSum_cons, amountSum_nil]
        dsimp only
        linarith
      · rw [if_neg hh, amountSum_nil]
        push_neg at hh
        linarith
    have hemit0 :
        0 ≤ amountSum (if eps < min d.balance c.balance
          then [⟨d.name, c.name, min d.balance c.balance⟩] else []) := by
      by_cases hh : eps < min d.balance c.balance
      · rw [if_pos hh, amountSum_cons, amountSum_nil]
        dsimp only
        linarith
      · rw [if_neg hh, amountSum_nil]
    rw [settle_step, amountSum_append]
    rw [sumBal_cons, sumBal_cons] at hle
    rw [sumBal_cons]
    by_cases h1 : d.balance - min d.balance c.balance < eps
    · by_cases h2 : c.balance - min d.balance c.balance < eps
      · rw [if_pos h1, if_pos h2]
        have hprem : sumBal cs ≤ sumBal ds + (δ + eps) := by linarith
        have ihh := ih1 (δ + eps) (by linarith) hprem
        simp only [List.length_cons] at ihh ⊢
        push_cast at ihh ⊢
        linarith
      · rw [if_pos h1, if_neg h2]
        have hprem :
            sumBal (⟨c.name, c.balance - min d.balance c.balance⟩ :: cs) ≤
              sumBal ds + (δ + eps) := by
          rw [sumBal_cons]
          dsimp only
          linarith
        have ihh := ih2 (δ + eps) (by linarith) hprem
        rw [sumBal_cons] at ihh
        dsimp only at ihh
        simp only [List.length_cons] at ihh ⊢
        push_cast at ihh ⊢
        linarith
    · by_cases h2 : c.balance - min d.balance c.balance < eps
      · rw [if_neg h1, if_pos h2]
        have hprem :
            sumBal cs ≤
              sumBal (⟨d.name, d.balance - min d.balance c.balance⟩ :: ds)
                + δ := by
          rw [sumBal_cons]
          dsimp only
          linarith
        have ihh := ih3 δ h0 hprem
        simp only [List.length_cons] at ihh ⊢
        push_cast at ihh ⊢
        linarith
      · exfalso
        rcases min_drop d.balance c.balance with hh | hh
        · exact absurd hh h1
        · exact absurd hh h2

/-- Per-name upper bound: a debtor name never pays out more than the
total balance its entries carry, provided all balances are positive. -/
lemma settle_outSum_le :
    ∀ D C : List Balance, (∀ b ∈ D, 0 < b.balance) →
      (∀ b ∈ C, 0 < b.balance) → ∀ nm,
        outSum (settle D C) nm ≤ nameBal D nm := by
  intro D C
  induction D, C using settle.induct with
  | case1 C =>
    intro _ _ nm
    simp [settle, outSum_nil, nameBal_nil]
  | case2 d ds =>
    intro hD _ nm
    simp only [settle, outSum_nil]
    exact nameBal_nonneg _ hD nm
  | case3 d ds c cs s hs ih1 ih2 ih3 | case4 d ds c cs s hs ih1 ih2 ih3 =>
    have hs' : s = min d.balance c.balance := rfl
    rw [hs'] at hs ih2 ih3
    intro hD hC nm
    have heps : (0 : ℚ) < eps := by norm_num [eps]
    have hd0 : 0 < d.balance := hD d (by simp)
    have hc0 : 0 < c.balance := hC c (by simp)
    have hds : ∀ b ∈ ds, 0 < b.balance := fun b hb => hD b (by simp [hb])
    have hcs : ∀ b ∈ cs, 0 < b.balance := fun b hb => hC b (by simp [hb])
    have hm0 : 0 < min d.balance c.balance := lt_min hd0 hc0
    have hmd : min d.balance c.balance ≤ d.balance := min_le_left _ _
    have hemit :
        outSum (if eps < min d.balance c.balance
          then [⟨d.name, c.name, min d.balance c.balance⟩] else []) nm ≤
          (if d.name = nm then min d.balance c.balance else 0) := by
      by_cases hh : eps < min d.balance c.balance
      · rw [if_pos hh, outSum_cons, outSum_nil, add_zero]
      · rw [if_neg hh, outSum_nil]
        split_ifs <;> linarith
    rw [settle_step, outSum_append, nameBal_cons]
    by_cases h1 : d.balance - min d.balance c.balance < eps
    · by_cases h2 : c.balance - min d.balance c.balance < eps
      · rw [if_pos h1, if_pos h2]
        have ihh := ih1 hds hcs nm
        split_ifs at hemit ⊢ <;> linarith
      · rw [if_pos h1, if_neg h2]
        have hcs' : ∀ b ∈
            (⟨c.name, c.balance - min d.balance c.balance⟩ :: cs),
            0 < b.balance := by
          intro b hb
          rcases List.mem_cons.1 hb with rfl | hb'
          · dsimp only
            push_neg at h2
            linarith
          · exact hcs b hb'
        have ihh := ih2 hds hcs' nm
        split_ifs at hemit ⊢ <;> linarith
    · by_cases h2 : c.balance - min d.balance c.balance < eps
      · rw [if_neg h1, if_pos h2]
        have hds' : ∀ b ∈
            (⟨d.name, d.balance - min d.balance c.balance⟩ :: ds),
            0 < b.balance := by
          intro b hb
          rcases List.mem_cons.1 hb with rfl | hb'
          · dsimp only
            push_neg at h1
            linarith
          · exact hds b hb'
        have ihh := ih3 hds' hcs nm
        rw [nameBal_cons] at ihh
        dsimp only at ihh
        split_ifs at hemit ihh ⊢ <;> linarith
      · exfalso
        rcases min_drop d.balance c.balance with hh | hh
        · exact absurd hh h1
        · exact absurd hh h2

/-- Per-name upper bound, creditor side: a creditor name never receives
more than the total balance its entries carry. -/
lemma settle_inSum_le :
    ∀ D C : List Balance, (∀ b ∈ D, 0 < b.balance) →
      (∀ b ∈ C, 0 < b.balance) → ∀ nm,
        inSum (settle D C) nm ≤ nameBal C nm := by
  intro D C
  induction D, C using settle.induct with
  | case1 C =>
    intro _ hC nm
    simp only [settle, inSum_nil]
    exact nameBal_nonneg _ hC nm
  | case2 d ds =>
    intro _ _ nm
    simp [settle, inSum_nil, nameBal_nil]
  | case3 d ds c cs s hs ih1 ih2 ih3 | case4 d ds c cs s hs ih1 ih2 ih3 =>
    have hs' : s = min d.balance c.balance := rfl
    rw [hs'] at hs ih2 ih3
    intro hD hC nm
    have heps : (0 : ℚ) < eps := by norm_num [eps]
    have hd0 : 0 < d.balance := hD d (by simp)
    have hc0 : 0 < c.balance := hC c (by simp)
    have hds : ∀ b ∈ ds, 0 < b.balance := fun b hb => hD b (by simp [hb])
    have hcs : ∀ b ∈ cs, 0 < b.balance := fun b hb => hC b (by simp [hb])
    have hm0 : 0 < min d.balance c.balance := lt_min hd0 hc0
    have hmc : min d.balance c.balance ≤ c.balance := min_le_right _ _
    have hemit :
        inSum (if eps < min d.balance c.balance
          then [⟨d.name, c.name, min d.balance c.balance⟩] else []) nm ≤
          (if c.name = nm then min d.balance c.balance else 0) := by
      by_cases hh : eps < min d.balance c.balance
      · rw [if_pos hh, inSum_cons, inSum_nil, add_zero]
      · rw [if_neg hh, inSum_nil]
        split_ifs <;> linarith
    rw [settle_step, inSum_append, nameBal_cons]
    by_cases h1 : d.balance - min d.balance c.balance < eps
    · by_cases h2 : c.balance - min d.balance c.balance < eps
      · rw [if_pos h1, if_pos h2]
        have ihh := ih1 hds hcs nm
        split_ifs at hemit ⊢ <;> linarith
      · rw [if_pos h1, if_neg h2]
        have hcs' : ∀ b ∈
            (⟨c.name, c.balance - min d.balance c.balance⟩ :: cs),
            0 < b.balance := by
          intro b hb
          rcases List.mem_cons.1 hb with rfl | hb'
          · dsimp only
            push_neg at h2
            linarith
          · exact hcs b hb'
        have ihh := ih2 hds hcs' nm
        rw [nameBal_cons] at ihh
        dsimp only at ihh
        split_ifs at hemit ihh ⊢ <;> linarith
    · by_cases h2 : c.balance - min d.balance c.balance < eps
      · rw [if_neg h1, if_pos h2]
        have hds' : ∀ b ∈
            (⟨d.name, d.balance - min d.balance c.balance⟩ :: ds),
            0 < b.balance := by
          intro b hb
          rcases List.mem_cons.1 hb with rfl | hb'
          · dsimp only
            push_neg at h1
            linarith
          · exact hds b hb'
        have ihh := ih3 hds' hcs nm
        split_ifs at hemit ⊢ <;> linarith
      · exfalso
        rcases min_drop d.balance c.balance with hh | hh
        · exact absurd hh h1
        · exact absurd hh h2

/-- Names absent from the transfer list pay nothing. -/
lemma outSum_zero_of_not_from (S : List Settlement) (nm : String)
    (h : ∀ t ∈ S, t.from_ ≠ nm) : outSum S nm = 0 := by
  induction S with
  | nil => rfl
  | cons t S' ih =>
    rw [outSum_cons, if_neg (h t (by simp)), zero_add]
    exact ih (fun t' ht' => h t' (by simp [ht']))

/-- Names absent from the transfer list receive nothing. -/
lemma inSum_zero_of_not_to (S : List Settlement) (nm : String)
    (h : ∀ t ∈ S, t.to_ ≠ nm) : inSum S nm = 0 := by
  induction S with
  | nil => rfl
  | cons t S' ih =>
    rw [inSum_cons, if_neg (h t (by simp)), zero_add]
    exact ih (fun t' ht' => h t' (by simp [ht']))

/-- Summing the out-flows over a duplicate-free list of names that covers
every `from` name yields the total of all amounts. -/
lemma sum_outSum :
    ∀ (S : List Settlement) (ns : List String), ns.Nodup →
      (∀ t ∈ S, t.from_ ∈ ns) →
      ((ns.map (outSum S)).sum) = amountSum S := by
  intro S
  induction S with
  | nil =>
    intro ns _ _
    have hz : ns.map (outSum []) = ns.map (fun _ => (0 : ℚ)) :=
      List.map_congr_left (fun nm _ => outSum_nil nm)
    rw [hz, amountSum_nil]
    simp
  | cons t S' ih =>
    intro ns hnd hmem
    have step :
        (ns.map (outSum (t :: S'))).sum =
          ((ns.map (fun nm => if t.from_ = nm then t.amount else 0)).sum) +
            ((ns.map (outSum S')).sum) := by
      rw [← sum_map_add]
      congr 1
      refine List.map_congr_left ?_
      intro nm _
      exact outSum_cons t S' nm
    rw [step, sum_ite_single ns t.from_ t.amount hnd (hmem t (by simp)),
      ih ns hnd (fun t' ht' => hmem t' (by simp [ht'])), amountSum_cons]

/-- Summing the in-flows over a duplicate-free list of names that covers
every `to` name yields the total of all amounts. -/
lemma sum_inSum :
    ∀ (S : List Settlement) (ns : List String), ns.Nodup →
      (∀ t ∈ S, t.to_ ∈ ns) →
      ((ns.map (inSum S)).sum) = amountSum S := by
  intro S
  induction S with
  | nil =>
    intro ns _ _
    have hz : ns.map (inSum []) = ns.map (fun _ => (0 : ℚ)) :=
      List.map_congr_left (fun nm _ => inSum_nil nm)
    rw [hz, amountSum_nil]
    simp
  | cons t S' ih =>
    intro ns hnd hmem
    have step :
        (ns.map (inSum (t :: S'))).sum =
          ((ns.map (fun nm => if t.to_ = nm then t.amount else 0)).sum) +
            ((ns.map (inSum S')).sum) := by
      rw [← sum_map_add]
      congr 1
      refine List.map_congr_left ?_
      intro nm _
      exact inSum_cons t S' nm
    rw [step, sum_ite_single ns t.to_ t.amount hnd (hmem t (by simp)),
      ih ns hnd (fun t' ht' => hmem t' (by simp [ht'])), amountSum_cons]

lemma sum_map_sub {α : Type} (L : List α) (f g : α → ℚ) :
    ((L.map (fun x => f x - g x)).sum) = (L.map f).sum - (L.map g).sum := by
  induction L with
  | nil => simp
  | cons x t ih =>
    simp [ih]
    ring

/-- Per-entry lower bound on what a debtor pays: with distinct debtor
names, each debtor entry pays out all of its balance except for at most
`2·eps` per classified participant. -/
lemma debtor_entry_bound (D C : List Balance)
    (hDpos : ∀ b ∈ D, 0 < b.balance) (hCpos : ∀ b ∈ C, 0 < b.balance)
    (hnD : (D.map Balance.name).Nodup) (hsum : sumBal D ≤ sumBal C) :
    ∀ d ∈ D, 0 ≤ d.balance - outSum (settle D C) d.name ∧
      d.balance - outSum (settle D C) d.name ≤
        2 * eps * (D.length + C.length) := by
  intro d hd
  have hglobal := settle_debt_cleared D C 0 le_rfl (by linarith)
  have hfrom : ∀ t ∈ settle D C, t.from_ ∈ D.map Balance.name :=
    fun t ht => (settle_names D C t ht).1
  have hpart : ((D.map Balance.name).map (outSum (settle D C))).sum =
      amountSum (settle D C) :=
    sum_outSum (settle D C) _ hnD hfrom
  have hmm : (D.map (fun b => outSum (settle D C) b.name)).sum =
      amountSum (settle D C) := by
    rw [← hpart, List.map_map]
    rfl
  have hterms : ∀ x ∈ D, 0 ≤ x.balance - outSum (settle D C) x.name := by
    intro x hx
    have h1 := settle_outSum_le D C hDpos hCpos x.name
    rw [nameBal_of_nodup D hnD x hx] at h1
    linarith
  have hsplit :
      ((D.map (fun b => b.balance - outSum (settle D C) b.name)).sum) =
        sumBal D - amountSum (settle D C) := by
    rw [sum_map_sub, hmm]
    rfl
  refine ⟨hterms d hd, ?_⟩
  have hmem : (d.balance - outSum (settle D C) d.name) ∈
      D.map (fun b => b.balance - outSum (settle D C) b.name) :=
    List.mem_map_of_mem _ hd
  have hle := List.single_le_sum (l :=
      D.map (fun b => b.balance - outSum (settle D C) b.name))
    (fun y hy => by
      obtain ⟨x, hx, rfl⟩ := List.mem_map.1 hy
      exact hterms x hx) _ hmem
  rw [hsplit] at hle
  linarith

/-- Per-entry lower bound on what a creditor receives, mirror image of
`debtor_entry_bound`. -/
lemma creditor_entry_bound (D C : List Balance)
    (hDpos : ∀ b ∈ D, 0 < b.balance) (hCpos : ∀ b ∈ C, 0 < b.balance)
    (hnC : (C.map Balance.name).Nodup) (hsum : sumBal C ≤ sumBal D) :
    ∀ c ∈ C, 0 ≤ c.balance - inSum (settle D C) c.name ∧
      c.balance - inSum (settle D C) c.name ≤
        2 * eps * (D.length + C.length) := by
  intro c hc
  have hglobal := settle_credit_cleared D C 0 le_rfl (by linarith)
  have hto : ∀ t ∈ settle D C, t.to_ ∈ C.map Balance.name :=
    fun t ht => (settle_names D C t ht).2
  have hpart : ((C.map Balance.name).map (inSum (settle D C))).sum =
      amountSum (settle D C) :=
    sum_inSum (settle D C) _ hnC hto
  have hmm : (C.map (fun b => inSum (settle D C) b.name)).sum =
      amountSum (settle D C) := by
    rw [← hpart, List.map_map]
    rfl
  have hterms : ∀ x ∈ C, 0 ≤ x.balance - inSum (settle D C) x.name := by
    intro x hx
    have h1 := settle_inSum_le D C hDpos hCpos x.name
    rw [nameBal_of_nodup C hnC x hx] at h1
    linarith
  have hsplit :
      ((C.map (fun b => b.balance - inSum (settle D C) b.name)).sum) =
        sumBal C - amountSum (settle D C) := by
    rw [sum_map_sub, hmm]
    rfl
  refine ⟨hterms c hc, ?_⟩
  have hmem : (c.balance - inSum (settle D C) c.name) ∈
      C.map (fun b => b.balance - inSum (settle D C) b.name) :=
    List.mem_map_of_mem _ hc
  have hle := List.single_le_sum (l :=
      C.map (fun b => b.balance - inSum (settle D C) b.name))
    (fun y hy => by
      obtain ⟨x, hx, rfl⟩ := List.mem_map.1 hy
      exact hterms x hx) _ hmem
  rw [hsplit] at hle
  linarith

/-! ## Facts about the classified input -/

lemma totalAmount_eq_sum (l : List Person) :
    totalAmount l = (l.map Person.amount).sum := by
  have aux : ∀ (L : List Person) (a : ℚ),
      L.foldl (fun s p => s + p.amount) a = a + (L.map Person.amount).sum := by
    intro L
    induction L with
    | nil => intro a; simp
    | cons p t ih =>
      intro a
      simp [ih]
      ring
  have h := aux l 0
  rw [zero_add] at h
  exact h

lemma sum_map_const_gen {α : Type} (L : List α) (q : ℚ) :
    ((L.map (fun _ => q)).sum) = L.length * q := by
  induction L with
  | nil => simp
  | cons x t ih =>
    simp [ih]
    ring

/-- The nets sum to zero exactly: the engine computes them as
`amount - total/length` over the rationals. -/
lemma sum_balances_zero (l : List Person) (h : l ≠ []) :
    sumBal (balances l) = 0 := by
  have h0 : l.length ≠ 0 := fun hz => h (List.length_eq_zero.1 hz)
  have hlen : (l.length : ℚ) ≠ 0 := Nat.cast_ne_zero.mpr h0
  have h1 : sumBal (balances l) =
      (l.map Person.amount).sum - l.length * averageAmount l := by
    unfold sumBal balances
    rw [List.map_map]
    have hcomp : (Balance.balance ∘
        fun p : Person => (⟨p.name, p.amount - averageAmount l⟩ : Balance)) =
        fun p : Person => p.amount - averageAmount l := rfl
    rw [hcomp, sum_map_sub, sum_map_const_gen]
  rw [h1, averageAmount, totalAmount_eq_sum]
  field_simp

/-- Splitting the balance list into creditors and debtors preserves the
total: positive entries go to the creditors, negated negative entries to
the debtors, zero entries to neither. -/
lemma sumBal_split : ∀ B : List Balance,
    sumBal (creditorsOf B) - sumBal (debtorsOf B) = sumBal B := by
  intro B
  induction B with
  | nil => simp [debtorsOf, creditorsOf, sumBal_nil]
  | cons b B' ih =>
    by_cases hneg : b.balance < 0
    · have hpos : ¬ 0 < b.balance := by linarith
      simp only [debtorsOf, creditorsOf, List.filter_cons, hneg, hpos,
        List.map_cons,
        decide_eq_true_eq, ite_false, ite_true]
      simp only [debtorsOf, creditorsOf] at ih
      rw [sumBal_cons, sumBal_cons]
      dsimp only
      linarith
    · by_cases hpos : 0 < b.balance
      · simp only [debtorsOf, creditorsOf, List.filter_cons, hneg, hpos,
          List.map_cons,
          decide_eq_true_eq, ite_false, ite_true]
        simp only [debtorsOf, creditorsOf] at ih
        rw [sumBal_cons, sumBal_cons]
        linarith
      · have hzero : b.balance = 0 := le_antisymm (not_lt.1 hpos) (not_lt.1 hneg)
        simp only [debtorsOf, creditorsOf, List.filter_cons, hneg, hpos,
                    decide_eq_true_eq, ite_false, ite_true]
        simp only [debtorsOf, creditorsOf] at ih
        rw [sumBal_cons]
        linarith

/-- The total owed by the debtors equals the total owed to the
creditors. -/
lemma debtors_creditors_balance (l : List Person) (h : l ≠ []) :
    sumBal (debtors l) = sumBal (creditors l) := by
  have h1 := sumBal_split (balances l)
  have h2 := sum_balances_zero l h
  unfold debtors creditors
  linarith

lemma debtors_pos (l : List Person) : ∀ b ∈ debtors l, 0 < b.balance := by
  intro b hb
  simp only [debtors, debtorsOf, List.mem_map, List.mem_filter,
    decide_eq_true_eq] at hb
  obtain ⟨a, ⟨_, hneg⟩, rfl⟩ := hb
  dsimp only
  linarith

lemma creditors_pos (l : List Person) :
    ∀ b ∈ creditors l, 0 < b.balance := by
  intro b hb
  simp only [creditors, creditorsOf, List.mem_filter,
    decide_eq_true_eq] at hb
  exact hb.2

lemma debtors_names_sublist (l : List Person) :
    List.Sublist ((debtors l).map Balance.name)
      ((balances l).map Balance.name) := by
  unfold debtors debtorsOf
  rw [List.map_map]
  have hcomp : (Balance.name ∘
      fun b : Balance => (⟨b.name, -b.balance⟩ : Balance)) = Balance.name :=
    rfl
  rw [hcomp]
  exact List.Sublist.map Balance.name (List.filter_sublist _)

lemma creditors_names_sublist (l : List Person) :
    List.Sublist ((creditors l).map Balance.name)
      ((balances l).map Balance.name) :=
  List.Sublist.map Balance.name (List.filter_sublist _)

lemma debtors_names_nodup (l : List Person)
    (hn : (l.map Person.name).Nodup) :
    ((debtors l).map Balance.name).Nodup := by
  have hB : ((balances l).map Balance.name).Nodup := by
    rwa [balances_names]
  exact List.Nodup.sublist (debtors_names_sublist l) hB

lemma creditors_names_nodup (l : List Person)
    (hn : (l.map Person.name).Nodup) :
    ((creditors l).map Balance.name).Nodup := by
  have hB : ((balances l).map Balance.name).Nodup := by
    rwa [balances_names]
  exact List.Nodup.sublist (creditors_names_sublist l) hB

/-- With distinct input names, the only balance entry carrying a given
contributor's name is that contributor's own entry. -/
lemma balance_entry_unique (l : List Person)
    (hn : (l.map Person.name).Nodup) {b : Balance} (hb : b ∈ balances l)
    {p : Person} (hp : p ∈ l) (hname : b.name = p.name) :
    b = ⟨p.name, p.amount - averageAmount l⟩ := by
  have hbp : (⟨p.name, p.amount - averageAmount l⟩ : Balance) ∈ balances l :=
    List.mem_map_of_mem _ hp
  have hnB : ((balances l).map Balance.name).Nodup := by
    rwa [balances_names]
  exact List.inj_on_of_nodup_map hnB hb hbp hname

lemma counts_le (l : List Person) :
    (debtors l).length + (creditors l).length ≤ l.length := by
  have haux : ∀ B : List Balance,
      (debtorsOf B).length + (creditorsOf B).length ≤ B.length := by
    intro B
    induction B with
    | nil => simp [debtorsOf, creditorsOf]
    | cons b B' ih =>
      by_cases hneg : b.balance < 0
      · have hpos : ¬ 0 < b.balance := by linarith
        simp only [debtorsOf, creditorsOf, List.filter_cons, hneg, hpos,
          List.map_cons,
          decide_eq_true_eq, ite_false, ite_true, List.length_cons]
        simp only [debtorsOf, creditorsOf] at ih
        omega
      · by_cases hpos : 0 < b.balance
        · simp only [debtorsOf, creditorsOf, List.filter_cons, hneg, hpos,
            List.map_cons,
            decide_eq_true_eq, ite_false, ite_true, List.length_cons]
          simp only [debtorsOf, creditorsOf] at ih
          omega
        · simp only [debtorsOf, creditorsOf, List.filter_cons, hneg, hpos,
                        decide_eq_true_eq, ite_false, ite_true, List.length_cons]
          simp only [debtorsOf, creditorsOf] at ih
          omega
  have hlen : (balances l).length = l.length := by simp [balances]
  have := haux (balances l)
  unfold debtors creditors
  omega

/-- C2 (refuted as stated): two independent failures.  First, applying a
transfer as the claim words it — subtracting the amount from the `from`
contributor's paid total and adding it to the `to` contributor's — moves
the totals away from the fair share: on scenario B the only transfer is
Bob pays Alice 50, and subtracting 50 from Bob's total of 0 leaves -50,
not the fair share 50.  Second, even with the conventional direction
(add to `from`, subtract from `to`), the tolerance `eps` fails: on
`exSkip` every matching step transfers exactly one cent and is skipped,
the returned list is empty, and P1 remains 5 cents short of the fair
share, which exceeds `eps = 0.01`. -/
theorem claim_C2_counterexample :
    (calculateSettlements exPair = [⟨"Bob", "Alice", 50⟩] ∧
      ¬ |(0 : ℚ) - outSum (calculateSettlements exPair) "Bob"
          + inSum (calculateSettlements exPair) "Bob"
          - averageAmount exPair| ≤ eps) ∧
    (2 ≤ exSkip.length ∧ calculateSettlements exSkip = [] ∧
      ¬ |(19/20 : ℚ) + outSum (calculateSettlements exSkip) "P1"
          - inSum (calculateSettlements exSkip) "P1"
          - averageAmount exSkip| ≤ eps) := by
  have h1 : calculateSettlements exPair = [⟨"Bob", "Alice", 50⟩] := by
    norm_num [calculateSettlements, exPair, debtors, creditors, balances,
      debtorsOf, creditorsOf, totalAmount, averageAmount, settle, eps]
  have h2 : calculateSettlements exSkip = [] := by
    norm_num [calculateSettlements, exSkip, debtors, creditors, balances,
      debtorsOf, creditorsOf, totalAmount, averageAmount, settle, eps]
  have havg1 : averageAmount exPair = 50 := by
    norm_num [averageAmount, totalAmount, exPair]
  have havg2 : averageAmount exSkip = 1 := by
    norm_num [averageAmount, totalAmount, exSkip]
  refine ⟨⟨h1, ?_⟩, by norm_num [exSkip], h2, ?_⟩
  · rw [h1, havg1]
    rw [show outSum [(⟨"Bob", "Alice", 50⟩ : Settlement)] "Bob" = 50 by
      rw [outSum_cons, outSum_nil]
      norm_num]
    rw [show inSum [(⟨"Bob", "Alice", 50⟩ : Settlement)] "Bob" = 0 by
      rw [inSum_cons, inSum_nil,
        if_neg (by decide : ¬ ("Alice" : String) = "Bob")]
      norm_num]
    rw [show (0 : ℚ) - 50 + 0 - 50 = -100 by norm_num]
    rw [abs_neg, abs_of_pos (show (0 : ℚ) < 100 by norm_num)]
    norm_num [eps]
  · rw [h2, havg2, outSum_nil, inSum_nil]
    rw [show (19/20 : ℚ) + 0 - 0 - 1 = -(1/20) by norm_num]
    rw [abs_neg, abs_of_pos (show (0 : ℚ) < 1/20 by norm_num)]
    norm_num [eps]

/-- C2 (amended): with at least 2 contributors and distinct names,
applying every returned transfer in the direction of reimbursement
(adding the amount to the `from` contributor's paid total and
subtracting it from the `to` contributor's) brings every contributor's
adjusted total within `2·eps·n` of the fair share, where `n` is the
number of contributors; the claimed tolerance `eps` itself does not hold
(see the counterexample), because each matching step may silently
discard up to one cent and each advanced cursor may leave up to one cent
behind. -/
theorem claim_C2_amended (l : List Person) (h2 : 2 ≤ l.length)
    (hn : (l.map Person.name).Nodup) :
    ∀ p ∈ l,
      |p.amount + outSum (calculateSettlements l) p.name
        - inSum (calculateSettlements l) p.name - averageAmount l| ≤
        2 * eps * l.length := by
  intro p hp
  have hne : l ≠ [] := by
    intro hE
    rw [hE] at h2
    simp at h2
  have hnot : ¬ l.length < 2 := by omega
  have hS : calculateSettlements l = settle (debtors l) (creditors l) := by
    simp [calculateSettlements, hnot]
  rw [hS]
  have hDpos := debtors_pos l
  have hCpos := creditors_pos l
  have hbal := debtors_creditors_balance l hne
  have hcount : ((debtors l).length : ℚ) + ((creditors l).length : ℚ) ≤
      (l.length : ℚ) := by
    exact_mod_cast counts_le l
  have heps : (0 : ℚ) < eps := by norm_num [eps]
  have hlen0 : (0 : ℚ) ≤ (l.length : ℚ) := by positivity
  have hmono : 2 * eps * (((debtors l).length : ℚ) +
      ((creditors l).length : ℚ)) ≤ 2 * eps * (l.length : ℚ) := by
    have h2e : (0 : ℚ) ≤ 2 * eps := by linarith
    exact mul_le_mul_of_nonneg_left hcount h2e
  have hbp : (⟨p.name, p.amount - averageAmount l⟩ : Balance) ∈ balances l :=
    List.mem_map_of_mem _ hp
  rcases lt_trichotomy (p.amount - averageAmount l) 0 with hneg | hzero | hpos
  · have hd0 : (⟨p.name, -(p.amount - averageAmount l)⟩ : Balance) ∈
        debtors l := by
      unfold debtors debtorsOf
      refine List.mem_map.2 ⟨⟨p.name, p.amount - averageAmount l⟩, ?_, rfl⟩
      exact List.mem_filter.2 ⟨hbp, by simpa using hneg⟩
    have hinz : inSum (settle (debtors l) (creditors l)) p.name = 0 := by
      apply inSum_zero_of_not_to
      intro t ht hto
      have hccn := (settle_names _ _ t ht).2
      rw [hto] at hccn
      obtain ⟨b2, hb2, hpos2, hname2⟩ := mem_creditors_names hccn
      have hb2eq := balance_entry_unique l hn hb2 hp hname2
      rw [hb2eq] at hpos2
      dsimp only at hpos2
      linarith
    have hbound := debtor_entry_bound (debtors l) (creditors l) hDpos hCpos
      (debtors_names_nodup l hn) (le_of_eq hbal) _ hd0
    dsimp only at hbound
    obtain ⟨hlow, hhigh⟩ := hbound
    rw [hinz]
    rw [abs_le]
    constructor
    · linarith
    · linarith
  · have hnd : p.name ∉ (debtors l).map Balance.name := by
      intro hmem
      obtain ⟨b1, hb1, hneg1, hname1⟩ := mem_debtors_names hmem
      have hb1eq := balance_entry_unique l hn hb1 hp hname1
      rw [hb1eq] at hneg1
      dsimp only at hneg1
      linarith
    have hnc : p.name ∉ (creditors l).map Balance.name := by
      intro hmem
      obtain ⟨b2, hb2, hpos2, hname2⟩ := mem_creditors_names hmem
      have hb2eq := balance_entry_unique l hn hb2 hp hname2
      rw [hb2eq] at hpos2
      dsimp only at hpos2
      linarith
    have houtz : outSum (settle (debtors l) (creditors l)) p.name = 0 := by
      apply outSum_zero_of_not_from
      intro t ht hf
      exact hnd (hf ▸ (settle_names _ _ t ht).1)
    have hinz : inSum (settle (debtors l) (creditors l)) p.name = 0 := by
      apply inSum_zero_of_not_to
      intro t ht hto
      exact hnc (hto ▸ (settle_names _ _ t ht).2)
    rw [houtz, hinz]
    have hz2 : p.amount + 0 - 0 - averageAmount l = 0 := by linarith
    rw [hz2, abs_zero]
    have h2e : (0 : ℚ) ≤ 2 * eps := by linarith
    exact mul_nonneg h2e hlen0
  · have hc0 : (⟨p.name, p.amount - averageAmount l⟩ : Balance) ∈
        creditors l := by
      unfold creditors creditorsOf
      exact List.mem_filter.2 ⟨hbp, by simpa using hpos⟩
    have houtz : outSum (settle (debtors l) (creditors l)) p.name = 0 := by
      apply outSum_zero_of_not_from
      intro t ht hf
      have hddn := (settle_names _ _ t ht).1
      rw [hf] at hddn
      obtain ⟨b1, hb1, hneg1, hname1⟩ := mem_debtors_names hddn
      have hb1eq := balance_entry_unique l hn hb1 hp hname1
      rw [hb1eq] at hneg1
      dsimp only at hneg1
      linarith
    have hbound := creditor_entry_bound (debtors l) (creditors l) hDpos hCpos
      (creditors_names_nodup l hn) (le_of_eq hbal.symm) _ hc0
    dsimp only at hbound
    obtain ⟨hlow, hhigh⟩ := hbound
    rw [houtz]
    rw [abs_le]
    constructor
    · linarith
    · linarith

theorem claim_C2_amended_witness :
    2 ≤ exPair.length ∧ (exPair.map Person.name).Nodup ∧
      |((⟨"Bob", 0⟩ : Person)).amount + outSum (calculateSettlements exPair) "Bob"
        - inSum (calculateSettlements exPair) "Bob" - averageAmount exPair| ≤
        2 * eps * exPair.length := by
  refine ⟨by decide, by decide, ?_⟩
  have hmem : ((⟨"Bob", 0⟩ : Person)) ∈ exPair := by simp [exPair]
  exact claim_C2_amended exPair (by decide) (by decide) _ hmem

end ExpenseSplitter
